import Mathlib

/-!
Verification development for the trie-based router (`src/router/trie-router/node.ts`)
and the AWS Lambda event-adapter handlers.

The router is embedded shallowly:

* JavaScript objects used as string-keyed maps become insertion-ordered
  association lists (`PMap`, method maps, children maps).
* The reserved `emptyParams` singleton (distinguished by object identity in the
  source) becomes the `none` case of `Option PMap`; every freshly allocated
  params object is `some _`.
* `search` mutates shared node state (`node.#params`, `handlerSet.params`), so
  the embedding threads the whole-trie state through the traversal, addressing
  nodes by their key paths from the root (the trie is a strict tree, so paths
  are faithful stand-ins for object references, and writes through one
  reference are visible through every other reference to the same node).
* Places where the JavaScript would throw a `TypeError` (dereferencing a
  missing pattern child) are modelled by `Option`: `none` is a thrown
  exception.
* Route tokenisation (`splitRoutingPath` / `getPattern`, in `utils/url`, not
  part of the sources) is modelled from the spec: `insert` consumes a list of
  segment descriptors (`Part`). Lookup-time `splitPath` is simple enough to be
  modelled directly. Regular-expression matchers are embedded as executable
  `String → Bool` tests together with their source text.
-/

set_option synthInstance.maxSize 512

namespace TrieRouter

/-- A JS object used as a params map: parameter name to matched string,
in insertion order. -/
abbrev PMap := List (String × String)

/-- A handler record's `params` object. Values can be the JS `undefined`
(`none`), which arises when neither lookup produced a binding. -/
abbrev POut := List (String × Option String)

/-- Property read `m[k]` on a params object. -/
def pfind (m : PMap) (k : String) : Option String :=
  (m.find? (fun kv => kv.1 == k)).map (fun kv => kv.2)

/-- Property write `m[k] = v` on a params object (overwrites in place,
otherwise appends, as JS objects keep first-insertion key order). -/
def pput (m : PMap) (k v : String) : PMap :=
  if (m.find? (fun kv => kv.1 == k)).isSome then
    m.map (fun kv => if kv.1 == k then (kv.1, v) else kv)
  else m ++ [(k, v)]

/-- Property write on a handler record's `params` object. -/
def oput (m : POut) (k : String) (v : Option String) : POut :=
  if (m.find? (fun kv => kv.1 == k)).isSome then
    m.map (fun kv => if kv.1 == k then (kv.1, v) else kv)
  else m ++ [(k, v)]

/-- Read through an optional params map: `emptyParams` (`none`) and a missing
key both produce JS `undefined`. -/
def optGet (m : Option PMap) (k : String) : Option String :=
  m.bind (fun mm => pfind mm k)

/-- JS truthiness of a possibly-undefined string value (`""` is falsy). -/
def truthyS : Option String → Bool
  | some s => s != ""
  | none => false

/-- JS property-key coercion: `possibleKeys` may contain the `undefined`
pushed by `('*')[1]`, which JS coerces to the key `"undefined"`. -/
def jsKey : Option String → String
  | some s => s
  | none => "undefined"

/-- A segment matcher: `true` (unconstrained `:name`) or a compiled `RegExp`.
The regex is carried as its source text plus an executable anchored test
(`new RegExp('^' + src + '$')`), since the code only calls `.test`. -/
inductive Matcher where
  | always : Matcher
  | regex (src : String) (test : String → Bool) : Matcher

/-- `Pattern` from `utils/url`: either the literal string `'*'` or the tuple
`[label, name, matcher]` produced by `getPattern`. -/
inductive Pattern where
  | star : Pattern
  | param (label name : String) (m : Matcher) : Pattern

/-- `pattern[0]` — the child key under which the pattern's node is stored
(`'*'` indexes to the character `*`). -/
def Pattern.key : Pattern → String
  | .star => "*"
  | .param label _ _ => label

/-- `pattern[1]` — the parameter name; for the string `'*'` the index `[1]`
is the JS `undefined`, modelled as `none`. -/
def Pattern.paramName : Pattern → Option String
  | .star => none
  | .param _ name _ => some name

/-- A segment descriptor of a route path.

Modelled from the spec: the spec delegates registration-time tokenisation
(`splitRoutingPath` in `utils/url`, not among the sources) to a collaborator
that yields "an ordered sequence of segment descriptors" — literal text,
wildcard, or named parameter with optional regex constraint. -/
inductive Part where
  | lit (s : String) : Part
  | star : Part
  | param (label name : String) (m : Matcher) : Part

/-- The raw segment text, used as the children-map key in `insert`. -/
def Part.key : Part → String
  | .lit s => s
  | .star => "*"
  | .param label _ _ => label

/-- `getPattern(p)` from `utils/url`, modelled from the spec: literal
segments yield no pattern; `*` yields the string pattern `'*'`; `:name` /
`:name{re}` yield the `[label, name, matcher]` tuple. -/
def Part.getPattern : Part → Option Pattern
  | .lit _ => none
  | .star => some Pattern.star
  | .param l n m => some (Pattern.param l n m)

/-- `HandlerSet<T>` (with the `params` slot of `HandlerParamsSet<T>`, which is
`undefined` until `search` assigns it). -/
structure HandlerSet (T : Type) where
  handler : T
  possibleKeys : List (Option String)
  score : Nat
  params : Option POut

/-- One entry of `Node#methods`: a single-key JS object mapping a method name
to a handler set (kept as an association list). -/
abbrev MethodMap (T : Type) := List (String × HandlerSet T)

/-- `Node<T>`: method maps, children, patterns, the insertion-order counter
and the traversal-scoped `#params` field (`none` is the `emptyParams`
singleton). -/
inductive Node (T : Type) : Type where
  | mk (methods : List (MethodMap T)) (children : List (String × Node T))
       (patterns : List Pattern) (order : Nat) (params : Option PMap) : Node T

variable {T : Type}

def Node.methods : Node T → List (MethodMap T)
  | .mk m _ _ _ _ => m

def Node.children : Node T → List (String × Node T)
  | .mk _ c _ _ _ => c

def Node.patterns : Node T → List Pattern
  | .mk _ _ p _ _ => p

def Node.order : Node T → Nat
  | .mk _ _ _ o _ => o

def Node.params : Node T → Option PMap
  | .mk _ _ _ _ pa => pa

def Node.withParams : Node T → Option PMap → Node T
  | .mk m c p o _, pa => .mk m c p o pa

def Node.withMethods : Node T → List (MethodMap T) → Node T
  | .mk _ c p o pa, m => .mk m c p o pa

def Node.withOrder : Node T → Nat → Node T
  | .mk m c p _ pa, o => .mk m c p o pa

/-- `new Node()`. -/
def Node.empty : Node T := .mk [] [] [] 0 none

/-- `node.#children[k]`. -/
def childGet (n : Node T) (k : String) : Option (Node T) :=
  ((n.children).find? (fun kv => kv.1 == k)).map (fun kv => kv.2)

/-- Replace the value stored under a key of a JS object, keeping key order. -/
def replaceList {α : Type} : List (String × α) → String → α → List (String × α)
  | [], _, _ => []
  | kv :: kvs, k, c =>
    if kv.1 == k then (kv.1, c) :: replaceList kvs k c
    else kv :: replaceList kvs k c

/-- Replace the subtree stored under an existing child key. -/
def childReplace (n : Node T) (k : String) (c : Node T) : Node T :=
  match n with
  | .mk m cs p o pa => .mk m (replaceList cs k c) p o pa

/-- Dereference a node by its key path from the root. Because the trie is a
strict tree, key paths are faithful stand-ins for JS object references. -/
def getN : Node T → List String → Option (Node T)
  | n, [] => some n
  | n, k :: ks =>
    match childGet n k with
    | some c => getN c ks
    | none => none

/-- Apply an update to the node at a key path (identity when the path does
not exist; `search` only ever writes through valid references). -/
def modifyN : Node T → List String → (Node T → Node T) → Node T
  | n, [], f => f n
  | n, k :: ks, f =>
    match childGet n k with
    | some c => childReplace n k (modifyN c ks f)
    | none => n

/-- `node.#params = v`, addressed by path. -/
def setNodeParams (t : Node T) (path : List String) (v : Option PMap) : Node T :=
  modifyN t path (fun n => n.withParams v)

def listModify : List α → Nat → (α → α) → List α
  | [], _, _ => []
  | x :: xs, 0, f => f x :: xs
  | x :: xs, Nat.succ i, f => x :: listModify xs i f

def hsWithParams (hs : HandlerSet T) (v : Option POut) : HandlerSet T :=
  { hs with params := v }

/-- `handlerSet.params = v` for the record found in `node.#methods[i][mkey]`
of the node at `path`. -/
def setRecordParams (t : Node T) (path : List String) (i : Nat) (mkey : String)
    (v : Option POut) : Node T :=
  modifyN t path (fun n =>
    n.withMethods (listModify n.methods i (fun m =>
      m.map (fun kv => if kv.1 == mkey then (kv.1, hsWithParams kv.2 v) else kv))))

/-- `METHOD_NAME_ALL` from `router.ts` (not among the sources).
Modelled from the spec: the ALL-methods sentinel key. -/
def METHOD_NAME_ALL : String := "ALL"

/-- `possibleKeys.filter((v, i, a) => a.indexOf(v) === i)` — keep first
occurrences. -/
def dedupFirst (l : List (Option String)) : List (Option String) :=
  l.foldl (fun acc v => if acc.contains v then acc else acc ++ [v]) []

/-- The walk of `insert` (lines 46–79): descend or create a child per segment
descriptor, pushing patterns onto the parent when a child is created,
accumulating parameter names, and appending a fresh method map at the leaf. -/
def insertGo (method : String) (handler : T) (score : Nat) :
    Node T → List Part → List (Option String) → Node T
  | n, [], acc =>
    let hs : HandlerSet T :=
      { handler := handler, possibleKeys := dedupFirst acc, score := score, params := none }
    n.withMethods (n.methods ++ [[(method, hs)]])
  | n, p :: parts, acc =>
    match childGet n p.key with
    | some c =>
      let acc' := match p.getPattern with
        | some pat => acc ++ [pat.paramName]
        | none => acc
      childReplace n p.key (insertGo method handler score c parts acc')
    | none =>
      match p.getPattern with
      | some pat =>
        let child := insertGo method handler score Node.empty parts (acc ++ [pat.paramName])
        (match n with
         | .mk m cs ps o pa => Node.mk m (cs ++ [(p.key, child)]) (ps ++ [pat]) o pa)
      | none =>
        let child := insertGo method handler score Node.empty parts acc
        (match n with
         | .mk m cs ps o pa => Node.mk m (cs ++ [(p.key, child)]) ps o pa)

/-- `insert(method, path, handler)` on the root node, the route path already
tokenised into segment descriptors. `this.#order = ++this.#order` happens
first and the new order is the record's score. -/
def insert (root : Node T) (method : String) (parts : List Part) (handler : T) : Node T :=
  let score := root.order + 1
  insertGo method handler score (root.withOrder score) parts []

/-- Build a trie by a sequence of registrations. -/
def build (regs : List (String × List Part × T)) : Node T :=
  regs.foldl (fun t r => insert t r.1 r.2.1 r.2.2) Node.empty

/-- A reference to a handler record living in the trie: the node's key path,
the index into its `#methods` list, and the method key that matched. The
score is copied out for sorting (it is immutable during `search`). -/
structure Ref where
  path : List String
  idx : Nat
  mkey : String
  score : Nat

/-- `m[k]` on a method map. -/
def mfind (m : MethodMap T) (k : String) : Option (HandlerSet T) :=
  (m.find? (fun kv => kv.1 == k)).map (fun kv => kv.2)

/-- `processedSet[score]` (missing keys are falsy). -/
def nbGet (l : List (Nat × Bool)) (k : Nat) : Bool :=
  (((l.find? (fun kv => kv.1 == k)).map (fun kv => kv.2)).getD false)

/-- `processedSet[score] = v`. -/
def nbSet (l : List (Nat × Bool)) (k : Nat) (v : Bool) : List (Nat × Bool) :=
  if (l.find? (fun kv => kv.1 == k)).isSome then
    l.map (fun kv => if kv.1 == k then (kv.1, v) else kv)
  else l ++ [(k, v)]

/-- The per-key resolution loop of `#getHandlerSets` (lines 97–103):

`handlerSet.params[key] = params?.[key] && !processed ? params[key]
                          : nodeParams[key] ?? params?.[key]`

with `processed = processedSet[handlerSet.score]`, set after each key. -/
def resolveGo (np ps : Option PMap) (score : Nat) :
    List (Option String) → POut → List (Nat × Bool) → POut
  | [], acc, _ => acc
  | k :: ks, acc, pset =>
    resolveGo np ps score ks
      (oput acc (jsKey k)
        (if truthyS (optGet ps (jsKey k)) && !(nbGet pset score) then optGet ps (jsKey k)
         else (optGet np (jsKey k)).or (optGet ps (jsKey k))))
      (nbSet pset score true)

/-- Resolve a record's `possibleKeys` against the two params maps (the body
of the `if` at line 96 of `#getHandlerSets`). -/
def resolveParams (keys : List (Option String)) (np ps : Option PMap) (score : Nat) : POut :=
  resolveGo np ps score keys [] []

/-- `#getHandlerSets(node, method, nodeParams, params?)` (lines 82–108):
walk the node's method maps, take `m[method] || m[METHOD_NAME_ALL]`, reset
the record's `params` object and fill it by resolution unless both maps are
the `emptyParams` singleton, returning the (mutated) trie and the pushed
record references. -/
def getHandlerSets (t : Node T) (path : List String) (method : String)
    (np ps : Option PMap) : Node T × List Ref :=
  match getN t path with
  | none => (t, [])
  | some node =>
    (node.methods.enum).foldl
      (fun (st : Node T × List Ref) im =>
        let i := im.1
        let m := im.2
        match ((mfind m method).map (fun hs => (method, hs))).orElse
            (fun _ => (mfind m METHOD_NAME_ALL).map (fun hs => (METHOD_NAME_ALL, hs))) with
        | none => st
        | some kh =>
          let hs := kh.2
          let newParams :=
            if np.isSome || ps.isSome then resolveParams hs.possibleKeys np ps hs.score else []
          (setRecordParams st.1 path i kh.1 (some newParams),
           st.2 ++ [⟨path, i, kh.1, hs.score⟩]))
      (t, [])

/-- `matcher instanceof RegExp && matcher.test(restPathString)` (line 168). -/
def jsRestTest (mat : Matcher) (restPathString : String) : Bool :=
  match mat with
  | Matcher.regex _ f => f restPathString
  | Matcher.always => false

/-- `matcher === true || matcher.test(part)` (line 174). -/
def jsSegTest (mat : Matcher) (part : String) : Bool :=
  match mat with
  | Matcher.always => true
  | Matcher.regex _ f => f part

/-- `node.#params === emptyParams ? {} : { ...node.#params }` (line 145). -/
def copyParams (p : Option PMap) : PMap :=
  match p with
  | none => []
  | some m => m

/-- Traversal state of `search`: the (mutable) trie, the `handlerSets`
accumulator, and the `tempNodes` frontier being built for the next depth. -/
structure SState (T : Type) where
  t : Node T
  refs : List Ref
  temp : List (List String)

/-- One iteration of the pattern loop of `search` (lines 143–188) for a single
frontier node. `none` models the `TypeError` the JS would throw when a pattern
key has no child and the matcher succeeds (dereferencing `undefined`). -/
def processPattern (method part : String) (rest : List String) (isLast : Bool)
    (path : List String) (node : Node T) (st : SState T) (pat : Pattern) :
    Option (SState T) :=
  match pat with
  | Pattern.star =>
    match childGet node "*" with
    | some _ =>
      let r := getHandlerSets st.t (path ++ ["*"]) method node.params none
      some { t := r.1, refs := st.refs ++ r.2, temp := st.temp ++ [path ++ ["*"]] }
    | none => some st
  | Pattern.param label name mat =>
    if part == "" then some st
    else
      let child := childGet node label
      let restPathString := String.intercalate "/" rest
      if jsRestTest mat restPathString then
        match child with
        | none => none
        | some _ =>
          let params2 := pput (copyParams node.params) name restPathString
          let r := getHandlerSets st.t (path ++ [label]) method node.params (some params2)
          some { st with t := r.1, refs := st.refs ++ r.2 }
      else
        if jsSegTest mat part then
          match child with
          | none => none
          | some childNode =>
            let params2 := pput (copyParams node.params) name part
            if isLast then
              let r1 := getHandlerSets st.t (path ++ [label]) method (some params2) node.params
              let r2 :=
                if (childGet childNode "*").isSome then
                  getHandlerSets r1.1 (path ++ [label, "*"]) method (some params2) node.params
                else (r1.1, [])
              some { st with t := r2.1, refs := st.refs ++ r1.2 ++ r2.2 }
            else
              some { t := setNodeParams st.t (path ++ [label]) (some params2),
                     refs := st.refs, temp := st.temp ++ [path ++ [label]] }
        else some st

/-- The literal-child step of the frontier loop (lines 126–141): when a
child exists under the exact segment text, stash the inherited params on it,
then either collect handler records (probing the `'*'` child first when this
is the last segment) or push it onto the next frontier. -/
def literalStep (method part : String) (isLast : Bool) (st : SState T)
    (path : List String) (node : Node T) : SState T :=
  match childGet node part with
  | some nextNode =>
    let t1 := setNodeParams st.t (path ++ [part]) node.params
    if isLast then
      let r1 :=
        if (childGet nextNode "*").isSome then
          getHandlerSets t1 (path ++ [part, "*"]) method node.params none
        else (t1, [])
      let r2 := getHandlerSets r1.1 (path ++ [part]) method node.params none
      { t := r2.1, refs := st.refs ++ r1.2 ++ r2.2, temp := st.temp }
    else
      { t := t1, refs := st.refs, temp := st.temp ++ [path ++ [part]] }
  | none => st

/-- The body of the inner frontier loop of `search` (lines 124–189) for one
frontier node: the literal-child step, then the pattern loop. -/
def processNode (method part : String) (rest : List String) (isLast : Bool)
    (st : SState T) (path : List String) : Option (SState T) :=
  match getN st.t path with
  | none => some st
  | some node =>
    node.patterns.foldlM (fun s pat => processPattern method part rest isLast path node s pat)
      (literalStep method part isLast st path node)

/-- The outer segment loop of `search` (lines 119–192), recursing on the
remaining segments (`rest = parts.slice(i)`, so the head is the current part
and `isLast` is the emptiness of the tail). -/
def searchLoop (method : String) :
    List String → SState T → List (List String) → Option (SState T)
  | [], st, _ => some st
  | part :: tail, st, frontier => do
    let st1 ← frontier.foldlM
      (fun s path => processNode method part (part :: tail) tail.isEmpty s path)
      { st with temp := [] }
    searchLoop method tail { st1 with temp := [] } st1.temp

/-- Stable insertion used to model `Array.prototype.sort` with comparator
`(a, b) => a.score - b.score` (stable, ascending). -/
def insertSorted : List Ref → Ref → List Ref
  | [], r => [r]
  | x :: xs, r => if x.score ≤ r.score then x :: insertSorted xs r else r :: x :: xs

def sortByScore (l : List Ref) : List Ref := l.foldl insertSorted []

/-- The final `handlerSets.map(({handler, params}) => [handler, params])`:
read the record through its reference in the final trie state, so every
occurrence of one record yields that record's current `params` object. -/
def readRef (t : Node T) (r : Ref) : Option (T × POut) :=
  match getN t r.path with
  | none => none
  | some n =>
    match (n.methods[r.idx]?).bind (fun m => mfind m r.mkey) with
    | some hs => some (hs.handler, hs.params.getD [])
    | none => none

/-- `search(method, path)` on pre-split segments: reset the root's `#params`
to `emptyParams`, run the frontier traversal, sort collected records by score
(skipped, as in the source, for at most one record), and read each reference
off the final trie. `none` is a thrown exception. The source wraps the result
array in a one-element tuple (`[[T, Params][]]`), kept here. -/
def searchX (t : Node T) (method : String) (parts : List String) :
    Option (Node T × List (List (T × POut))) :=
  (searchLoop method parts { t := setNodeParams t [] none, refs := [], temp := [] } [[]]).bind
    (fun st =>
      some (st.t,
        [(if st.refs.length > 1 then sortByScore st.refs else st.refs).filterMap
          (fun r => readRef st.t r)]))

/-- JS `path.split('/')`, character by character over the string data. -/
def splitOnSlash : List Char → List Char → List String
  | cur, [] => [String.mk cur.reverse]
  | cur, c :: cs =>
    if c == '/' then String.mk cur.reverse :: splitOnSlash [] cs
    else splitOnSlash (c :: cur) cs

/-- `splitPath` from `utils/url`, modelled from the spec's lookup-time
tokenizer: split on `'/'` and drop a leading empty segment. -/
def splitPath (p : String) : List String :=
  match splitOnSlash [] p.data with
  | "" :: rest => rest
  | ps => ps

/-- `search(method, path)` (lines 110–201). -/
def search (t : Node T) (method path : String) :
    Option (Node T × List (List (T × POut))) :=
  searchX t method (splitPath path)

/-- Just the returned match list of `search` (dropping the trie state). -/
def searchOut (t : Node T) (method path : String) : Option (List (List (T × POut))) :=
  (search t method path).map (fun r => r.2)

/-- The `params` slot of the record stored in `node.#methods[i][mkey]` of the
node at `path` (outer `none` when the node or record does not exist). -/
def recordParamsAt (t : Node T) (path : List String) (i : Nat) (mkey : String) :
    Option (Option POut) :=
  ((getN t path).bind (fun n => (n.methods[i]?).bind (fun m => mfind m mkey))).map
    (fun hs => hs.params)

/-- The build-phase view of one node: every field except the
traversal-scoped `#params` slots — child keys, patterns, the order counter,
and the method maps with each record's handler, `possibleKeys` and score. -/
structure SkelView (T : Type) where
  childKeys : List String
  patterns : List Pattern
  order : Nat
  methods : List (List (String × (T × List (Option String) × Nat)))

/-- Project a node onto its build-phase view. -/
def Node.skel (n : Node T) : SkelView T :=
  { childKeys := n.children.map (fun kv => kv.1),
    patterns := n.patterns,
    order := n.order,
    methods := n.methods.map (fun m =>
      m.map (fun kv => (kv.1, (kv.2.handler, kv.2.possibleKeys, kv.2.score)))) }

/-- The build-phase view of the node at a key path. -/
def skelAt (t : Node T) (path : List String) : Option (SkelView T) :=
  (getN t path).map Node.skel

/-- Every pattern registered on a node has a child stored under its key —
the invariant `insert` establishes and the reason `search` can dereference
`node.#children[key]` without a `TypeError`. -/
def patOK (s : SkelView T) : Prop :=
  ∀ pat ∈ s.patterns, pat.key ∈ s.childKeys

/-- Well-formedness of a trie: `patOK` at every reachable node. -/
def WFs (t : Node T) : Prop :=
  ∀ path s, skelAt t path = some s → patOK s

/-- A node update that only touches the traversal-scoped params slots:
children (with their subtrees) and the build-phase view are unchanged. -/
def ParamsOnly (f : Node T → Node T) : Prop :=
  ∀ n, (f n).children = n.children ∧ (f n).skel = n.skel

/-- The actual behaviour of the resolution loop with the `processedSet`
book-keeping replaced by an explicit first-key flag: only the first key may
prefer a truthy binding from the `params` argument; every later key resolves
from the `nodeParams` argument first, falling back to `params`. -/
def resolveSpecGo (np ps : Option PMap) : List (Option String) → POut → Bool → POut
  | [], acc, _ => acc
  | k :: ks, acc, first =>
    resolveSpecGo np ps ks
      (oput acc (jsKey k)
        (if first && truthyS (optGet ps (jsKey k)) then optGet ps (jsKey k)
         else (optGet np (jsKey k)).or (optGet ps (jsKey k))))
      false

def resolveSpec (keys : List (Option String)) (np ps : Option PMap) : POut :=
  resolveSpecGo np ps keys [] true

/-- Modelled from the spec: the resolution policy the spec states for
handler records — "the per-branch match-time parameter map first, falling
back to the node-inherited parameter map", uniformly for every key of the
record. -/
def claimResolve (keys : List (Option String)) (branch inherited : Option PMap) : POut :=
  keys.foldl (fun acc k =>
    oput acc (jsKey k) ((optGet branch (jsKey k)).or (optGet inherited (jsKey k)))) []

/-- Modelled from the spec: the matching relation of §3/§4.2 — literal
segments match equal text; a wildcard matches exactly one arbitrary
non-empty segment, with the end-of-path relaxation for a trailing wildcard;
an unconstrained parameter matches one segment; a regex parameter is
statically classified by a path separator in its source (rest-of-path vs
single-segment); and an empty segment text is skipped for dynamic-pattern
matching while still allowing literal traversal. -/
def specMatches : List Part → List String → Bool
  | [], [] => true
  | Part.star :: [], [] => true
  | _, [] => false
  | [], _ :: _ => false
  | Part.lit s :: r, p :: ps => s == p && specMatches r ps
  | Part.star :: r, p :: ps => (p != "") && specMatches r ps
  | Part.param _ _ Matcher.always :: r, p :: ps => (p != "") && specMatches r ps
  | Part.param _ _ (Matcher.regex src f) :: r, p :: ps =>
    if src.contains '/' then r.isEmpty && f (String.intercalate "/" (p :: ps))
    else (p != "") && f p && specMatches r ps

/-- Modelled from the spec: an executable anchored test for the regex
`[a-z0-9/]+\\.js` of the spec's rest-of-path scenario — one or more
characters from the class [a-z0-9/] followed by the literal `.js`. -/
def filenameRegexTest (s : String) : Bool :=
  let cs := s.toList
  let n := cs.length
  decide (3 < n) && (cs.drop (n - 3) == ['.', 'j', 's'])
    && (cs.take (n - 3)).all (fun c => c.isLower || c.isDigit || c == '/')

/-- Modelled from the spec: a registration matches a request when its method
is the requested one or the ALL sentinel and its descriptors consume the
request path. -/
def specRegMatches (reg : String × List Part × T) (method : String)
    (parts : List String) : Bool :=
  (reg.1 == method || reg.1 == METHOD_NAME_ALL) && specMatches reg.2.1 parts

end TrieRouter

namespace AwsLambda

/-- The part of a fetched `Response` that the adapter's control flow
inspects: status, header list, and an optional body. -/
structure Response where
  status : Nat
  headers : List (String × String)
  body : Option String

/-- One write observed on the Lambda `responseStream`. -/
inductive StreamEvent where
  | metadata (status : Nat) (headers : List (String × String)) : StreamEvent
  | write (s : String) : StreamEvent
  | endStream : StreamEvent
deriving DecidableEq

variable {Req Result : Type}

/-- `handle(app)` (adapter lines 153–173): build the request, fetch through
the app, translate the response — with no try/catch, so a failure in any
stage propagates to the caller. The fallible stages are parameters: request
construction, the app fetch and the result translation all run host APIs
whose failures are outside this component. -/
def handleRun (createRequest : Except String Req)
    (fetch : Req → Except String Response)
    (createResult : Response → Except String Result) : Except String Result := do
  let req ← createRequest
  let res ← fetch req
  createResult res

/-- `streamHandle(app)` (adapter lines 113–147): the request/fetch pipeline
inside `try { … } catch { write('Internal Server Error') } finally { end }`:
on success write the response metadata and the body (or `''`), on any
failure write the generic message; the stream is always ended. -/
def streamHandleRun (createRequest : Except String Req)
    (fetch : Req → Except String Response) : List StreamEvent :=
  (match (do let req ← createRequest; fetch req : Except String Response) with
   | Except.ok res =>
     [StreamEvent.metadata res.status res.headers,
      StreamEvent.write (res.body.getD "")]
   | Except.error _ => [StreamEvent.write "Internal Server Error"]) ++
  [StreamEvent.endStream]

end AwsLambda

namespace TrieRouter

variable {T : Type}

theorem find?_replaceList {α : Type} (k k' : String) (c : α) (cs : List (String × α)) :
    ((replaceList cs k c).find? (fun kv => kv.1 == k')).map (fun kv => kv.2) =
    if k' == k then ((cs.find? (fun kv => kv.1 == k')).map (fun _ => c))
    else ((cs.find? (fun kv => kv.1 == k')).map (fun kv => kv.2)) := by
  induction cs with
  | nil => cases h : (k' == k) <;> simp [replaceList, h]
  | cons x xs ih =>
    cases hxk : (x.1 == k) with
    | true =>
      cases hx : (x.1 == k') with
      | true =>
        have h1 : x.1 = k := by simpa using hxk
        have h2 : x.1 = k' := by simpa using hx
        have hk : (k' == k) = true := by rw [← h1, ← h2]; simp
        simp [replaceList, hxk, List.find?_cons, hx, hk]
      | false =>
        simp [replaceList, hxk, List.find?_cons, hx, ih]
    | false =>
      cases hx : (x.1 == k') with
      | true =>
        have h1 : x.1 ≠ k := by simpa using hxk
        have h2 : x.1 = k' := by simpa using hx
        have hk : (k' == k) = false := by
          have : k' ≠ k := fun he => h1 (by rw [h2, he])
          simpa using this
        simp [replaceList, hxk, List.find?_cons, hx, hk]
      | false =>
        simp [replaceList, hxk, List.find?_cons, hx, ih]

theorem replaceList_map_fst {α : Type} (k : String) (c : α) (cs : List (String × α)) :
    (replaceList cs k c).map (fun kv => kv.1) = cs.map (fun kv => kv.1) := by
  induction cs with
  | nil => rfl
  | cons x xs ih =>
    cases hxk : (x.1 == k) <;> simp [replaceList, hxk, ih]

theorem getN_cons (n : Node T) (k : String) (ks : List String) :
    getN n (k :: ks) = match childGet n k with
      | some c => getN c ks
      | none => none := rfl

theorem childReplace_children_map_fst (n : Node T) (k : String) (c : Node T) :
    (childReplace n k c).children.map (fun kv => kv.1) = n.children.map (fun kv => kv.1) := by
  cases n with
  | mk m cs p o pa => exact replaceList_map_fst k c cs

theorem childReplace_patterns (n : Node T) (k : String) (c : Node T) :
    (childReplace n k c).patterns = n.patterns := by cases n; rfl

theorem childReplace_methods (n : Node T) (k : String) (c : Node T) :
    (childReplace n k c).methods = n.methods := by cases n; rfl

theorem childReplace_order (n : Node T) (k : String) (c : Node T) :
    (childReplace n k c).order = n.order := by cases n; rfl

theorem skel_childReplace (n : Node T) (k : String) (c : Node T) :
    (childReplace n k c).skel = n.skel := by
  unfold Node.skel
  rw [childReplace_children_map_fst, childReplace_patterns, childReplace_order,
    childReplace_methods]

theorem childGet_childReplace (n : Node T) (k k' : String) (c : Node T) :
    childGet (childReplace n k c) k' =
      if k' == k then (childGet n k').map (fun _ => c) else childGet n k' := by
  cases n with
  | mk m cs p o pa =>
    have h := find?_replaceList k k' c cs
    simp only [childGet, childReplace, Node.children]
    rw [h]
    cases hk : (k' == k) <;> simp [Option.map_map, Function.comp]
    rfl

theorem childGet_childReplace_eq (n : Node T) (k : String) (c : Node T) :
    childGet (childReplace n k c) k = (childGet n k).map (fun _ => c) := by
  rw [childGet_childReplace]
  simp

theorem childGet_childReplace_ne (n : Node T) {k k' : String} (c : Node T)
    (h : (k' == k) = false) :
    childGet (childReplace n k c) k' = childGet n k' := by
  rw [childGet_childReplace, h]
  simp

theorem getN_congr_children (n n' : Node T) (h : n'.children = n.children)
    (k : String) (ks : List String) : getN n' (k :: ks) = getN n (k :: ks) := by
  rw [getN_cons, getN_cons]
  have : childGet n' k = childGet n k := by unfold childGet; rw [h]
  rw [this]

theorem skelAt_modifyN (f : Node T → Node T) (hf : ParamsOnly f) :
    ∀ (path : List String) (t : Node T) (q : List String),
      skelAt (modifyN t path f) q = skelAt t q := by
  intro path
  induction path with
  | nil =>
    intro t q
    show skelAt (f t) q = skelAt t q
    cases q with
    | nil => simp [skelAt, getN, (hf t).2]
    | cons k ks =>
      unfold skelAt
      rw [getN_congr_children t (f t) (hf t).1]
  | cons p0 ps ih =>
    intro t q
    show skelAt (modifyN t (p0 :: ps) f) q = skelAt t q
    unfold modifyN
    cases hc : childGet t p0 with
    | none => rfl
    | some c =>
      cases q with
      | nil => simp [skelAt, getN, skel_childReplace]
      | cons k ks =>
        unfold skelAt
        by_cases hk : (k == p0) = true
        · have hkeq : k = p0 := by simpa using hk
          subst hkeq
          rw [getN_cons, getN_cons, childGet_childReplace_eq, hc]
          show (getN (modifyN c ps f) ks).map Node.skel = (getN c ks).map Node.skel
          exact ih c ks
        · rw [getN_cons, getN_cons,
            childGet_childReplace_ne _ _ (Bool.of_not_eq_true hk)]

theorem ParamsOnly_withParams (v : Option PMap) :
    ParamsOnly (fun n : Node T => n.withParams v) := by
  intro n
  cases n with
  | mk m cs p o pa => exact ⟨rfl, rfl⟩

theorem map_listModify {α β : Type} (g : α → β) (f : α → α) (h : ∀ x, g (f x) = g x) :
    ∀ (l : List α) (i : Nat), (listModify l i f).map g = l.map g := by
  intro l
  induction l with
  | nil => intro i; rfl
  | cons x xs ih =>
    intro i
    cases i with
    | zero => simp [listModify, h x]
    | succ j => simp [listModify, ih j]

theorem ParamsOnly_recordParams (i : Nat) (mkey : String) (v : Option POut) :
    ParamsOnly (fun n : Node T =>
      n.withMethods (listModify n.methods i (fun m =>
        m.map (fun kv => if kv.1 == mkey then (kv.1, hsWithParams kv.2 v) else kv)))) := by
  intro n
  constructor
  · cases n; rfl
  · cases n with
    | mk ms cs p o pa =>
      unfold Node.skel
      simp only [Node.withMethods, Node.children, Node.patterns, Node.order, Node.methods]
      congr 1
      rw [map_listModify]
      intro m
      rw [List.map_map]
      exact List.map_congr_left (fun kv _ => by
        by_cases h : kv.1 = mkey <;> simp [h, hsWithParams])

theorem skelAt_setNodeParams (t : Node T) (path : List String) (v : Option PMap)
    (q : List String) : skelAt (setNodeParams t path v) q = skelAt t q :=
  skelAt_modifyN _ (ParamsOnly_withParams v) path t q

theorem skelAt_setRecordParams (t : Node T) (path : List String) (i : Nat) (mkey : String)
    (v : Option POut) (q : List String) :
    skelAt (setRecordParams t path i mkey v) q = skelAt t q :=
  skelAt_modifyN _ (ParamsOnly_recordParams i mkey v) path t q

end TrieRouter
namespace TrieRouter

variable {T : Type}

theorem foldlInv {α β : Type} (P : β → Prop) (step : β → α → β)
    (l : List α) (init : β) (h0 : P init) (hs : ∀ b a, P b → P (step b a)) :
    P (l.foldl step init) := by
  induction l generalizing init with
  | nil => exact h0
  | cons x xs ih => exact ih _ (hs _ _ h0)

theorem foldlM_opt_inv {α β : Type} (P : β → Prop) (step : β → α → Option β)
    (hstep : ∀ b a b', step b a = some b' → P b → P b') :
    ∀ (l : List α) (init b' : β), l.foldlM step init = some b' → P init → P b' := by
  intro l
  induction l with
  | nil =>
    intro init b' h h0
    simp only [List.foldlM_nil] at h
    cases h
    exact h0
  | cons x xs ih =>
    intro init b' h h0
    rw [List.foldlM_cons] at h
    cases hx : step init x with
    | none => rw [hx] at h; simp at h
    | some b1 =>
      rw [hx] at h
      simp only [Option.bind_eq_bind, Option.some_bind] at h
      exact ih b1 b' h (hstep _ _ _ hx h0)

theorem foldlM_opt_total {α β : Type} (P : β → Prop) (step : β → α → Option β) :
    ∀ (l : List α) (init : β), P init →
      (∀ b a, a ∈ l → P b → ∃ b', step b a = some b' ∧ P b') →
      ∃ b', l.foldlM step init = some b' ∧ P b' := by
  intro l
  induction l with
  | nil =>
    intro init h0 _
    exact ⟨init, by simp [List.foldlM_nil], h0⟩
  | cons x xs ih =>
    intro init h0 hs
    obtain ⟨b1, hb1, hp1⟩ := hs init x (List.mem_cons_self x xs) h0
    obtain ⟨b', hb', hp'⟩ := ih b1 hp1 (fun b a ha hp => hs b a (List.mem_cons_of_mem _ ha) hp)
    refine ⟨b', ?_, hp'⟩
    rw [List.foldlM_cons, hb1]
    simpa using hb'

theorem skelAt_getHandlerSets (t : Node T) (path : List String) (method : String)
    (np ps : Option PMap) (q : List String) :
    skelAt (getHandlerSets t path method np ps).1 q = skelAt t q := by
  unfold getHandlerSets
  cases h : getN t path with
  | none => rfl
  | some node =>
    refine foldlInv (fun st : Node T × List Ref => ∀ q, skelAt st.1 q = skelAt t q)
      _ _ _ (fun _ => rfl) ?_ q
    intro b a hb q
    cases hma : ((mfind a.2 method).map (fun hs => (method, hs))).orElse
        (fun _ => (mfind a.2 METHOD_NAME_ALL).map (fun hs => (METHOD_NAME_ALL, hs))) with
    | none => simpa [hma] using hb q
    | some kh =>
      simp only [hma]
      rw [skelAt_setRecordParams]
      exact hb q

theorem childGet_isSome_of_mem_keys (n : Node T) (k : String)
    (h : k ∈ n.children.map (fun kv => kv.1)) : (childGet n k).isSome := by
  obtain ⟨kv, hkv, hfst⟩ := List.mem_map.mp h
  have hsome : (n.children.find? (fun kv => kv.1 == k)).isSome :=
    List.find?_isSome.mpr ⟨kv, hkv, by simp [hfst]⟩
  unfold childGet
  cases hf : n.children.find? (fun kv => kv.1 == k) with
  | none => rw [hf] at hsome; simp at hsome
  | some kv2 => simp

theorem processPattern_inv {method part : String} {rest : List String} {isLast : Bool}
    {path : List String} {node : Node T} {st st' : SState T} {pat : Pattern}
    (h : processPattern method part rest isLast path node st pat = some st')
    (q : List String) : skelAt st'.t q = skelAt st.t q := by
  cases pat with
  | star =>
    simp only [processPattern] at h
    cases hc : childGet node "*" with
    | some c =>
      rw [hc] at h
      simp only [Option.some.injEq] at h
      rw [← h]
      exact skelAt_getHandlerSets _ _ _ _ _ _
    | none =>
      rw [hc] at h
      simp only [Option.some.injEq] at h
      rw [← h]
  | param label name mat =>
    simp only [processPattern] at h
    by_cases hpart : (part == "") = true
    · rw [if_pos hpart] at h
      simp only [Option.some.injEq] at h
      rw [← h]
    · rw [if_neg hpart] at h
      cases hrt : jsRestTest mat (String.intercalate "/" rest) with
      | true =>
        rw [if_pos hrt] at h
        cases hc : childGet node label with
        | none => rw [hc] at h; cases h
        | some c =>
          rw [hc] at h
          simp only [Option.some.injEq] at h
          rw [← h]
          exact skelAt_getHandlerSets _ _ _ _ _ _
      | false =>
        rw [if_neg (by simp [hrt])] at h
        cases hseg : jsSegTest mat part with
        | true =>
          rw [if_pos hseg] at h
          cases hc : childGet node label with
          | none => rw [hc] at h; cases h
          | some childNode =>
            rw [hc] at h
            cases isLast with
            | true =>
              simp only [eq_self_iff_true, if_true, Option.some.injEq] at h
              rw [← h]
              dsimp only
              split
              · rw [skelAt_getHandlerSets]
                exact skelAt_getHandlerSets _ _ _ _ _ _
              · dsimp only
                exact skelAt_getHandlerSets _ _ _ _ _ _
            | false =>
              simp only [Bool.false_eq_true, if_false, Option.some.injEq] at h
              rw [← h]
              exact skelAt_setNodeParams _ _ _ _
        | false =>
          rw [if_neg (by simp [hseg])] at h
          simp only [Option.some.injEq] at h
          rw [← h]

theorem processPattern_total {method part : String} {rest : List String} {isLast : Bool}
    {path : List String} {node : Node T} (st : SState T) {pat : Pattern}
    (hp : patOK (Node.skel node)) (hmem : pat ∈ node.patterns) :
    (processPattern method part rest isLast path node st pat).isSome := by
  cases pat with
  | star =>
    simp only [processPattern]
    cases childGet node "*" <;> simp
  | param label name mat =>
    simp only [processPattern]
    have hkmem : (Pattern.param label name mat).key ∈ (Node.skel node).childKeys := hp _ hmem
    have hkey : (childGet node label).isSome := childGet_isSome_of_mem_keys node label hkmem
    obtain ⟨c, hc⟩ := Option.isSome_iff_exists.mp hkey
    by_cases hpart : (part == "") = true
    · rw [if_pos hpart]
      simp
    · rw [if_neg hpart, hc]
      repeat' split
      all_goals simp_all

end TrieRouter
namespace TrieRouter

variable {T : Type}

theorem literalStep_skel {method part : String} {isLast : Bool} {st : SState T}
    {path : List String} {node : Node T} (q : List String) :
    skelAt (literalStep method part isLast st path node).t q = skelAt st.t q := by
  unfold literalStep
  cases hcl : childGet node part with
  | none => rfl
  | some nextNode =>
    cases isLast with
    | true =>
      simp only [eq_self_iff_true, if_true]
      rw [skelAt_getHandlerSets]
      split
      · rw [skelAt_getHandlerSets, skelAt_setNodeParams]
      · rw [skelAt_setNodeParams]
    | false =>
      simp only [Bool.false_eq_true, if_false]
      rw [skelAt_setNodeParams]

theorem processNode_inv {method part : String} {rest : List String} {isLast : Bool}
    {st st' : SState T} {path : List String}
    (h : processNode method part rest isLast st path = some st')
    (q : List String) : skelAt st'.t q = skelAt st.t q := by
  unfold processNode at h
  split at h
  · simp only [Option.some.injEq] at h
    rw [← h]
  · have := foldlM_opt_inv (fun b : SState T => ∀ q, skelAt b.t q = skelAt st.t q)
      _ (fun b a b' hb hpb q => (processPattern_inv hb q).trans (hpb q))
      _ _ st' h (fun q => literalStep_skel q)
    exact this q

theorem processNode_total {method part : String} {rest : List String} {isLast : Bool}
    {t0 : Node T} (hwf : WFs t0) {st : SState T} {path : List String}
    (hst : ∀ q, skelAt st.t q = skelAt t0 q) :
    ∃ st', processNode method part rest isLast st path = some st' ∧
      ∀ q, skelAt st'.t q = skelAt t0 q := by
  unfold processNode
  cases hn : getN st.t path with
  | none => exact ⟨st, rfl, hst⟩
  | some node =>
    have hskel : skelAt t0 path = some (Node.skel node) := by
      rw [← hst path]
      unfold skelAt
      rw [hn]
      rfl
    have hpat : patOK (Node.skel node) := hwf path _ hskel
    have hres := foldlM_opt_total (fun b : SState T => ∀ q, skelAt b.t q = skelAt t0 q)
      (fun s pat => processPattern method part rest isLast path node s pat)
      node.patterns (literalStep method part isLast st path node)
      (fun q => (literalStep_skel q).trans (hst q))
      (fun b pat hmem hpb => by
        obtain ⟨b', hb'⟩ := Option.isSome_iff_exists.mp
          (processPattern_total b hpat hmem)
        exact ⟨b', hb', fun q => (processPattern_inv hb' q).trans (hpb q)⟩)
    obtain ⟨st', hst', hp'⟩ := hres
    exact ⟨st', hst', hp'⟩

theorem searchLoop_inv {method : String} :
    ∀ (parts : List String) (st : SState T) (frontier : List (List String)) (st' : SState T),
      searchLoop method parts st frontier = some st' →
      ∀ q, skelAt st'.t q = skelAt st.t q := by
  intro parts
  induction parts with
  | nil =>
    intro st frontier st' h q
    unfold searchLoop at h
    simp only [Option.some.injEq] at h
    rw [← h]
  | cons part tail ih =>
    intro st frontier st' h q
    unfold searchLoop at h
    rw [Option.bind_eq_bind] at h
    cases hf : frontier.foldlM
        (fun s path => processNode method part (part :: tail) tail.isEmpty s path)
        { st with temp := [] } with
    | none => rw [hf] at h; simp at h
    | some st1 =>
      rw [hf] at h
      simp only [Option.some_bind] at h
      have h1 : ∀ q, skelAt st1.t q = skelAt st.t q :=
        foldlM_opt_inv (fun b : SState T => ∀ q, skelAt b.t q = skelAt st.t q)
          _ (fun b a b' hb hpb q => (processNode_inv hb q).trans (hpb q))
          frontier { st with temp := [] } st1 hf (fun q => rfl)
      exact (ih _ _ _ h q).trans (h1 q)

theorem searchLoop_total {method : String} {t0 : Node T} (hwf : WFs t0) :
    ∀ (parts : List String) (st : SState T) (frontier : List (List String)),
      (∀ q, skelAt st.t q = skelAt t0 q) →
      ∃ st', searchLoop method parts st frontier = some st' ∧
        ∀ q, skelAt st'.t q = skelAt t0 q := by
  intro parts
  induction parts with
  | nil =>
    intro st frontier hst
    exact ⟨st, rfl, hst⟩
  | cons part tail ih =>
    intro st frontier hst
    obtain ⟨st1, hst1, hp1⟩ := foldlM_opt_total
      (fun b : SState T => ∀ q, skelAt b.t q = skelAt t0 q)
      (fun s path => processNode method part (part :: tail) tail.isEmpty s path)
      frontier { st with temp := [] } hst
      (fun b a _ hpb => processNode_total hwf hpb)
    obtain ⟨st', hst', hp'⟩ := ih { st1 with temp := [] } st1.temp hp1
    refine ⟨st', ?_, hp'⟩
    unfold searchLoop
    rw [Option.bind_eq_bind, hst1, Option.some_bind]
    exact hst'

theorem searchX_skelAt (t : Node T) (method : String) (parts : List String)
    (q : List String) :
    skelAt (((searchX t method parts).map Prod.fst).getD t) q = skelAt t q := by
  unfold searchX
  cases hs : searchLoop method parts
      { t := setNodeParams t [] none, refs := [], temp := [] } [[]] with
  | none => rfl
  | some st =>
    simp only [Option.some_bind, Option.map_some', Option.getD_some]
    have h1 := searchLoop_inv parts _ _ _ hs q
    dsimp only at h1
    rw [h1, skelAt_setNodeParams]

theorem searchX_isSome {t : Node T} (hwf : WFs t) (method : String)
    (parts : List String) : (searchX t method parts).isSome := by
  unfold searchX
  have hst : ∀ q, skelAt (setNodeParams t [] none) q = skelAt t q :=
    fun q => skelAt_setNodeParams t [] none q
  obtain ⟨st', hst', _⟩ := searchLoop_total hwf parts
    { t := setNodeParams t [] none, refs := [], temp := [] } [[]] hst
  rw [hst', Option.some_bind]
  rfl

end TrieRouter
namespace TrieRouter

variable {T : Type}

theorem WFs_empty : WFs (Node.empty : Node T) := by
  intro path s hs
  cases path with
  | nil =>
    unfold skelAt at hs
    simp only [getN, Option.map_some', Option.some.injEq] at hs
    rw [← hs]
    intro pat hmem
    cases hmem
  | cons k ks =>
    unfold skelAt at hs
    rw [getN_cons] at hs
    have : childGet (Node.empty : Node T) k = none := rfl
    rw [this] at hs
    cases hs

theorem skelAt_nil (n : Node T) : skelAt n [] = some n.skel := rfl

theorem WFs_child {n : Node T} (hwf : WFs n) {k : String} {c : Node T}
    (h : childGet n k = some c) : WFs c := by
  intro path s hs
  apply hwf (k :: path)
  unfold skelAt at hs ⊢
  rw [getN_cons, h]
  exact hs

theorem WFs_of_parts {n : Node T} (hp : patOK n.skel)
    (hc : ∀ k c, childGet n k = some c → WFs c) : WFs n := by
  intro path s hs
  cases path with
  | nil =>
    rw [skelAt_nil] at hs
    simp only [Option.some.injEq] at hs
    rw [← hs]
    exact hp
  | cons k ks =>
    unfold skelAt at hs
    rw [getN_cons] at hs
    cases hcg : childGet n k with
    | none => rw [hcg] at hs; cases hs
    | some c =>
      rw [hcg] at hs
      exact hc k c hcg ks s hs

theorem withMethods_children (n : Node T) (ms : List (MethodMap T)) :
    (n.withMethods ms).children = n.children := by cases n; rfl

theorem childGet_withMethods (n : Node T) (ms : List (MethodMap T)) (k : String) :
    childGet (n.withMethods ms) k = childGet n k := by
  unfold childGet
  rw [withMethods_children]

theorem patOK_withMethods {n : Node T} (ms : List (MethodMap T)) (hp : patOK n.skel) :
    patOK (n.withMethods ms).skel := by
  intro pat hmem
  cases n with
  | mk m cs ps o pa => exact hp pat hmem

theorem Part.getPattern_key {p : Part} {pat : Pattern} (h : p.getPattern = some pat) :
    pat.key = p.key := by
  cases p with
  | lit s => cases h
  | star => cases h; rfl
  | param l n m => cases h; rfl

theorem WFs_insertGo (method : String) (handler : T) (score : Nat) :
    ∀ (parts : List Part) (n : Node T) (acc : List (Option String)),
      WFs n → WFs (insertGo method handler score n parts acc) := by
  intro parts
  induction parts with
  | nil =>
    intro n acc hwf
    show WFs (n.withMethods _)
    refine WFs_of_parts (patOK_withMethods _ (hwf [] n.skel (skelAt_nil n))) ?_
    intro k c hc
    rw [childGet_withMethods] at hc
    exact WFs_child hwf hc
  | cons p rest ih =>
    intro n acc hwf
    unfold insertGo
    cases hcg : childGet n p.key with
    | some c =>
      show WFs (childReplace n p.key (insertGo method handler score c rest _))
      refine WFs_of_parts ?_ ?_
      · rw [skel_childReplace]
        exact hwf [] n.skel (skelAt_nil n)
      · intro k c2 hc2
        rw [childGet_childReplace] at hc2
        by_cases hk : (k == p.key) = true
        · have hke : k = p.key := by simpa using hk
          subst hke
          rw [if_pos (by simp), hcg] at hc2
          simp only [Option.map_some', Option.some.injEq] at hc2
          rw [← hc2]
          exact ih c _ (WFs_child hwf hcg)
        · rw [if_neg hk] at hc2
          exact WFs_child hwf hc2
    | none =>
      cases hgp : p.getPattern with
      | some pat =>
        cases n with
        | mk m cs ps o pa =>
          show WFs (Node.mk m (cs ++ [(p.key,
            insertGo method handler score Node.empty rest (acc ++ [pat.paramName]))])
            (ps ++ [pat]) o pa)
          refine WFs_of_parts ?_ ?_
          · intro pt hmem
            show pt.key ∈ (cs ++ _).map (fun kv => kv.1)
            rw [List.map_append]
            cases List.mem_append.mp hmem with
            | inl hl =>
              exact List.mem_append_left _ (hwf [] _ (skelAt_nil _) pt hl)
            | inr hr =>
              have hpt : pt = pat := by
                cases hr with
                | head => rfl
                | tail _ hx => cases hx
              rw [hpt, Part.getPattern_key hgp]
              exact List.mem_append_right _ (by simp)
          · intro k c hc
            unfold childGet Node.children at hc
            rw [List.find?_append] at hc
            cases hf : cs.find? (fun kv => kv.1 == k) with
            | some kv =>
              rw [hf] at hc
              rw [show (some kv).or ([(p.key, _)].find? fun kv => kv.1 == k) = some kv from rfl] at hc
              simp only [Option.map_some', Option.some.injEq] at hc
              rw [← hc]
              refine WFs_child hwf (show childGet (Node.mk m cs ps o pa) k = some kv.2 from ?_)
              unfold childGet Node.children
              rw [hf]
              rfl
            | none =>
              rw [hf] at hc
              simp only [Option.none_or] at hc
              rw [List.find?_cons] at hc
              cases hpk : (p.key == k) with
              | true =>
                simp only [hpk, Option.map_some', Option.some.injEq] at hc
                rw [← hc]
                exact ih Node.empty _ WFs_empty
              | false =>
                simp only [hpk, List.find?_nil] at hc
                cases hc
      | none =>
        cases n with
        | mk m cs ps o pa =>
          show WFs (Node.mk m (cs ++ [(p.key,
            insertGo method handler score Node.empty rest acc)]) ps o pa)
          refine WFs_of_parts ?_ ?_
          · intro pt hmem
            show pt.key ∈ (cs ++ _).map (fun kv => kv.1)
            rw [List.map_append]
            exact List.mem_append_left _ (hwf [] _ (skelAt_nil _) pt hmem)
          · intro k c hc
            unfold childGet Node.children at hc
            rw [List.find?_append] at hc
            cases hf : cs.find? (fun kv => kv.1 == k) with
            | some kv =>
              rw [hf] at hc
              rw [show (some kv).or ([(p.key, _)].find? fun kv => kv.1 == k) = some kv from rfl] at hc
              simp only [Option.map_some', Option.some.injEq] at hc
              rw [← hc]
              refine WFs_child hwf (show childGet (Node.mk m cs ps o pa) k = some kv.2 from ?_)
              unfold childGet Node.children
              rw [hf]
              rfl
            | none =>
              rw [hf] at hc
              simp only [Option.none_or] at hc
              rw [List.find?_cons] at hc
              cases hpk : (p.key == k) with
              | true =>
                simp only [hpk, Option.map_some', Option.some.injEq] at hc
                rw [← hc]
                exact ih Node.empty _ WFs_empty
              | false =>
                simp only [hpk, List.find?_nil] at hc
                cases hc

theorem withOrder_skelAt (n : Node T) (o : Nat) (k : String) (ks : List String) :
    getN (n.withOrder o) (k :: ks) = getN n (k :: ks) := by
  apply getN_congr_children
  cases n; rfl

theorem WFs_withOrder {n : Node T} (hwf : WFs n) (o : Nat) : WFs (n.withOrder o) := by
  refine WFs_of_parts ?_ ?_
  · intro pat hmem
    cases n with
    | mk m cs ps oo pa => exact hwf [] _ (skelAt_nil _) pat hmem
  · intro k c hc
    refine WFs_child hwf (show childGet n k = some c from ?_)
    rw [← hc]
    unfold childGet
    cases n; rfl

theorem WFs_insert (root : Node T) (method : String) (parts : List Part) (handler : T)
    (hwf : WFs root) : WFs (insert root method parts handler) :=
  WFs_insertGo method handler _ parts _ [] (WFs_withOrder hwf _)

theorem WFs_build (regs : List (String × List Part × T)) : WFs (build regs) := by
  unfold build
  exact foldlInv WFs (fun t r => insert t r.1 r.2.1 r.2.2) regs Node.empty WFs_empty
    (fun t r hwf => WFs_insert t r.1 r.2.1 r.2.2 hwf)

end TrieRouter
namespace TrieRouter

variable {T : Type}

theorem nbGet_nil (score : Nat) : nbGet [] score = false := rfl

theorem nbGet_single (score : Nat) : nbGet [(score, true)] score = true := by
  simp [nbGet]

theorem nbSet_nil (score : Nat) : nbSet [] score true = [(score, true)] := rfl

theorem nbSet_single (score : Nat) : nbSet [(score, true)] score true = [(score, true)] := by
  simp [nbSet]

theorem resolveGo_after_first (np ps : Option PMap) (score : Nat) :
    ∀ (ks : List (Option String)) (acc : POut),
      resolveGo np ps score ks acc [(score, true)] = resolveSpecGo np ps ks acc false := by
  intro ks
  induction ks with
  | nil => intro acc; rfl
  | cons k kt ih =>
    intro acc
    unfold resolveGo resolveSpecGo
    rw [nbGet_single, nbSet_single]
    simp only [Bool.not_true, Bool.and_false, Bool.false_and, Bool.false_eq_true, if_false]
    exact ih _

/-- The source's per-key resolution (with the score-keyed `processedSet`
book-keeping) is exactly the first-key/later-keys policy of `resolveSpec`:
only the first name of a record's pass can take a truthy binding from the
`params` argument; every later name resolves from the `nodeParams` argument
first, falling back to `params`. -/
theorem resolveParams_eq_resolveSpec_aux (keys : List (Option String)) (np ps : Option PMap)
    (score : Nat) : resolveParams keys np ps score = resolveSpec keys np ps := by
  unfold resolveParams resolveSpec
  cases keys with
  | nil => rfl
  | cons k kt =>
    unfold resolveGo resolveSpecGo
    rw [nbGet_nil, nbSet_nil]
    simp only [Bool.not_false, Bool.and_true, Bool.true_and]
    exact resolveGo_after_first np ps score kt _

end TrieRouter
namespace TrieRouter

variable {T : Type}

/-- Claim C5: after inserting (GET, "/a/:x", h1) and then (GET, "/a/b", h2)
into an empty trie, search(GET, "/a/b") returns exactly the two pairs
(h1, {x: "b"}) and (h2, {}) in that order — h1 first because it was
registered first (lower score). Handlers are numbered h1 = 1, h2 = 2. -/
theorem c5_param_then_literal_scenario :
    searchOut (build [("GET", [Part.lit "a", Part.param ":x" "x" Matcher.always], 1),
                      ("GET", [Part.lit "a", Part.lit "b"], 2)]) "GET" "/a/b" =
      some [[(1, [("x", some "b")]), (2, [])]] := by decide

/-- Claim C6: registering the same method and path twice (GET /users/:id with
h1 = 1 then h2 = 2) raises no error (insert is total and the search below
returns a value), retains both registrations, and search(GET, "/users/42")
returns both records in registration order, each with {id: "42"}; the second
insert reuses the existing ":id" pattern child — the parent still has the
single child key ":id", a single pattern entry, and the shared leaf holds
both method maps. -/
theorem c6_duplicate_registration :
    (searchOut (build [("GET", [Part.lit "users", Part.param ":id" "id" Matcher.always], 1),
                       ("GET", [Part.lit "users", Part.param ":id" "id" Matcher.always], 2)])
        "GET" "/users/42" =
      some [[(1, [("id", some "42")]), (2, [("id", some "42")])]]) ∧
    ((getN (build [("GET", [Part.lit "users", Part.param ":id" "id" Matcher.always], 1),
                   ("GET", [Part.lit "users", Part.param ":id" "id" Matcher.always], 2)])
        ["users"]).map (fun n => n.children.map (fun kv => kv.1)) = some [":id"]) ∧
    ((getN (build [("GET", [Part.lit "users", Part.param ":id" "id" Matcher.always], 1),
                   ("GET", [Part.lit "users", Part.param ":id" "id" Matcher.always], 2)])
        ["users"]).map (fun n => n.patterns.length) = some 1) ∧
    ((getN (build [("GET", [Part.lit "users", Part.param ":id" "id" Matcher.always], 1),
                   ("GET", [Part.lit "users", Part.param ":id" "id" Matcher.always], 2)])
        ["users", ":id"]).map (fun n => n.methods.length) = some 2) := by decide

/-- Claim C7: with /files/* (h1 = 1) and /files (h2 = 2) both registered,
search(GET, "/files") returns the wildcard route's handler in addition to
the handler registered at the literal /files node: after the last segment is
consumed by the literal match, the wildcard child of that node is probed and
its records collected (trailing-wildcard end-of-path relaxation). -/
theorem c7_trailing_wildcard_relaxation :
    searchOut (build [("GET", [Part.lit "files", Part.star], 1),
                      ("GET", [Part.lit "files"], 2)]) "GET" "/files" =
      some [[(1, []), (2, [])]] := by decide

/-- Claim C8: for the registered route /js/:filename{[a-z0-9/]+\.js} whose
regex spans path segments, search(GET, "/js/chunk/123.js") matches with
{filename: "chunk/123.js"}: the regex is tested against the join of the
current segment and all following segments, the parameter is bound to that
joined remainder, and the match terminates at the pattern's child node. -/
theorem c8_rest_of_path_regex :
    searchOut (build [("GET", [Part.lit "js",
        Part.param ":filename\x7b[a-z0-9/]+\\.js\x7d" "filename"
          (Matcher.regex "[a-z0-9/]+\\.js" filenameRegexTest)], 1)])
      "GET" "/js/chunk/123.js" =
      some [[(1, [("filename", some "chunk/123.js")])]] := by decide

/-- Claim C10 (implicit): when the same handler record is collected twice in
one search, both returned occurrences share the record's single params
object, so both show the bindings of the last branch processed. Route /:x
searched with the literal path "/:x" collects the same record through the
literal child (whose own resolution pass produced an empty map) and then
through the pattern branch (binding x to ":x"); the output shows the
pattern branch's bindings on both occurrences, not a per-occurrence empty
map on the first. -/
theorem c10_shared_record_params_last_write_wins :
    (searchOut (build [("GET", [Part.param ":x" "x" Matcher.always], 1)]) "GET" "/:x" =
      some [[(1, [("x", some ":x")]), (1, [("x", some ":x")])]]) ∧
    ([("x", some ":x")] : POut) ≠ [] := by decide

/-- Claim C1 (counterexample): search does mutate trie state. For the trie
built from (GET, "/a/:x", 9), the handler record stored on the node at
["a", ":x"] has `params = none` (never assigned) before any search, and
after search(GET, "/a/b") the same node-held record's `params` field has
been overwritten in place with {x: "b"} — so a Node-held field changed. -/
theorem c1_search_mutates_record_params :
    (recordParamsAt (build [("GET", [Part.lit "a", Part.param ":x" "x" Matcher.always], 9)])
        ["a", ":x"] 0 "GET" = some none) ∧
    ((search (build [("GET", [Part.lit "a", Part.param ":x" "x" Matcher.always], 9)])
        "GET" "/a/b").map (fun r => recordParamsAt r.1 ["a", ":x"] 0 "GET") =
      some (some (some [("x", some "b")]))) := by decide

/-- Claim C1 (amended): search mutates only the traversal-scoped params
slots (per-node `#params` and each record's `params`); every other part of
the trie — children maps, pattern lists, order counter, and each record's
handler, possibleKeys and score — is unchanged: the build-phase view of
every node is the same before and after any search. -/
theorem c1_amended_search_preserves_skeleton {T : Type} (t : Node T)
    (method path : String) (q : List String) :
    skelAt (((search t method path).map Prod.fst).getD t) q = skelAt t q :=
  searchX_skelAt t method (splitPath path) q

/-- Claim C2 (counterexample): resolution is not branch-map-first for every
key. For route /:x/:x and search(GET, "/a/b") the per-branch match-time map
is {x: "b"} and the node-inherited map (stashed at the previous depth) is
{x: "a"}; the code resolves x to "a" (the inherited binding), while the
claimed branch-first policy — applied to those same two maps — yields "b". -/
theorem c2_resolution_not_branch_first :
    (searchOut (build [("GET", [Part.param ":x" "x" Matcher.always,
        Part.param ":x" "x" Matcher.always], 1)]) "GET" "/a/b" =
      some [[(1, [("x", some "a")])]]) ∧
    (claimResolve [some "x"] (some [("x", "b")]) (some [("x", "a")]) =
      [("x", some "b")]) := by decide

/-- Claim C2 (amended): the per-score guard is set after the first key, so
only the first name of a record's resolution pass consults the `params`
argument first (when its binding is truthy); every later name resolves from
the `nodeParams` argument first, falling back to `params`. Because the
terminal single-segment call site passes the branch map as `nodeParams` and
the inherited map as `params`, the inherited binding wins for the first key
there. -/
theorem c2_amended_first_key_only_policy (keys : List (Option String))
    (np ps : Option PMap) (score : Nat) :
    resolveParams keys np ps score = resolveSpec keys np ps :=
  resolveParams_eq_resolveSpec_aux keys np ps score

/-- Claim C4 (counterexample): an empty segment does not skip wildcard
patterns, and a wildcard does not require a non-empty segment. With only
(GET, "/a/*", 5) registered, search(GET, "/a/") — whose second segment text
is empty — returns the wildcard handler instead of the empty result the
claim requires. -/
theorem c4_wildcard_matches_empty_segment :
    (searchOut (build [("GET", [Part.lit "a", Part.star], 5)]) "GET" "/a/" =
      some [[(5, [])]]) ∧
    (some [[((5 : Nat), ([] : POut))]] ≠
      (some [[]] : Option (List (List (Nat × POut))))) := by decide

/-- Claim C4 (amended): an empty segment text skips named-parameter pattern
matching (the pattern step leaves the state unchanged for every `param`
pattern), but not wildcard patterns — the `*` branch runs before the empty
check and never examines the segment text at all (it is identical for any
segment, rest, and last-segment flag); literal-child traversal is still
allowed for empty segments. Concretely, /a/* matches "/a/" (wildcard
consuming the empty segment) and a route with a trailing empty literal
matches "/a/" through the literal child. -/
theorem c4_amended_empty_segment_behavior :
    (∀ {T : Type} (method : String) (rest : List String) (isLast : Bool)
        (path : List String) (node : Node T) (st : SState T) (l n : String) (m : Matcher),
      processPattern method "" rest isLast path node st (Pattern.param l n m) = some st) ∧
    (∀ {T : Type} (method p1 p2 : String) (r1 r2 : List String) (il1 il2 : Bool)
        (path : List String) (node : Node T) (st : SState T),
      processPattern method p1 r1 il1 path node st Pattern.star =
        processPattern method p2 r2 il2 path node st Pattern.star) ∧
    (searchOut (build [("GET", [Part.lit "a", Part.star], 5)]) "GET" "/a/" =
      some [[(5, [])]]) ∧
    (searchOut (build [("GET", [Part.lit "a", Part.lit ""], 7)]) "GET" "/a/" =
      some [[(7, [])]]) :=
  ⟨fun _ _ _ _ _ _ _ _ _ => rfl, fun _ _ _ _ _ _ _ _ _ _ => rfl, by decide, by decide⟩

/-- Claim C9 (counterexample): with only (GET, "/a/*", 5) registered, no
registration matches (GET, "/a/x/y") under the spec's matching rules (a
wildcard matches exactly one non-empty segment and the relaxation only
covers the bare prefix), yet search(GET, "/a/x/y") returns the wildcard
handler — a non-empty result for an input the spec calls unmatched. -/
theorem c9_spec_unmatched_but_nonempty :
    (([("GET", [Part.lit "a", Part.star], (5 : Nat))].all
        (fun reg => !(specRegMatches reg "GET" (splitPath "/a/x/y")))) = true) ∧
    (searchOut (build [("GET", [Part.lit "a", Part.star], 5)]) "GET" "/a/x/y" =
      some [[(5, [])]]) ∧
    (some [[((5 : Nat), ([] : POut))]] ≠
      (some [[]] : Option (List (List (Nat × POut))))) := by decide

/-- Claim C9 (amended): for every trie built by any sequence of inserts and
every (method, path), search never throws: every pattern stored on a node of
an insert-built trie has a child under its key, so the pattern-child
dereferences always succeed and search returns a (possibly empty) result
list. Which inputs produce a non-empty result follows the code's own
matching semantics, which differ from the spec's wildcard description. -/
theorem c9_amended_search_never_throws {T : Type}
    (regs : List (String × List Part × T)) (method path : String) :
    (search (build regs) method path).isSome :=
  searchX_isSome (WFs_build regs) method (splitPath path)

end TrieRouter

namespace AwsLambda

/-- Claim C3 (counterexample): the buffered `handle` has no try/catch — a
failure raised by request processing (here: the app fetch stage failing with
"boom") propagates to the caller unchanged instead of being reported as a
generic server-error response. -/
theorem c3_handle_propagates_failure :
    handleRun (Except.ok ()) (fun _ : Unit => Except.error "boom")
      (fun _ => Except.ok ()) = Except.error "boom" := rfl

/-- Claim C3 (amended): only the streaming `streamHandle` catches
request-processing failures and reports the generic "Internal Server Error"
(always ending the stream); the buffered `handle` propagates the failure of
any stage — request construction or the app fetch — to the host runtime. -/
theorem c3_amended_only_streamHandle_catches {Req Result : Type} (e : String)
    (f : Req → Except String Response)
    (g : Response → Except String Result) (r : Req) :
    handleRun (Except.error e) f g = Except.error e ∧
    handleRun (Except.ok r) (fun _ => Except.error e) g = Except.error e ∧
    streamHandleRun (Except.error e) f =
      [StreamEvent.write "Internal Server Error", StreamEvent.endStream] ∧
    streamHandleRun (Except.ok r) (fun _ => Except.error e) =
      [StreamEvent.write "Internal Server Error", StreamEvent.endStream] :=
  ⟨rfl, rfl, rfl, rfl⟩

end AwsLambda
